import Mathlib

/-!
Verification development for the document-to-vector ingestion and retrieval
core in backend/add_to_vector_db.py (with generate_embedding_batch shared by
backend/ai/openai_client.py).

Modelling conventions:
* A Python string is modelled as a `List Nat` of Unicode codepoints.
* The two external Unicode services used by clean_text_for_db are parameters:
  `nfc` stands for unicodedata.normalize("NFC", ·) and `isC c` stands for
  unicodedata.category(c).startswith("C").  Concrete witnesses instantiate
  them with `id` and with `asciiCatC`, which agree with the real Unicode
  tables on the pure-ASCII inputs those witnesses use.
* Fallible calls (the embedding provider, the database) are modelled with
  `Except` and with explicit per-attempt outcome functions; `while` loops are
  modelled by fuel-indexed structural recursion, with the fuel chosen so that
  the recursion is never cut short on the inputs the source can reach.
* Floating point embedding values are modelled as rationals; the `<->`
  operator of the store is modelled by the squared Euclidean distance, which
  induces the same ordering.
-/

namespace Canines

/-- Codepoints of the literal marker that clean_text_for_db appends when it
truncates: a space, three dots, a space, and the bracketed word truncated.
It consists of 16 codepoints. -/
def truncationMarker : List Nat :=
  [32, 46, 46, 46, 32, 91, 116, 114, 117, 110, 99, 97, 116, 101, 100, 93]

/-- The character class of the whitespace-collapsing regex in
clean_text_for_db: space, tab, form feed, vertical tab. -/
def isHWS (c : Nat) : Bool :=
  c == 32 || c == 9 || c == 12 || c == 11

/-- The Python str.strip() whitespace set (codepoints for which str.isspace
holds): 0x09-0x0D, 0x1C-0x1F, space, NEL, NBSP, and the Unicode space
separators. -/
def pyIsSpace (c : Nat) : Bool :=
  (9 ≤ c && c ≤ 13) || (28 ≤ c && c ≤ 31) || c == 32 || c == 133 || c == 160 ||
  c == 5760 || (8192 ≤ c && c ≤ 8202) || c == 8232 || c == 8233 || c == 8239 ||
  c == 8287 || c == 12288

/-- The per-character filter of clean_text_for_db: tab, newline and carriage
return are kept, any other codepoint of Unicode category group C is dropped,
everything else is kept. -/
def keepChar (isC : Nat → Bool) (c : Nat) : Bool :=
  c == 9 || c == 10 || c == 13 || !isC c

/-- One pass of re.sub(r"[ \x09\x0c\x0b]{2,}", " ", out): every maximal run of
two or more horizontal-whitespace codepoints becomes a single space, runs of
length one are kept verbatim.  The first argument is fuel; `collapseWs` below
supplies the list length, which always suffices because every recursive call
consumes at least one codepoint. -/
def collapseGo : Nat → List Nat → List Nat
  | 0, l => l
  | _ + 1, [] => []
  | _ + 1, [c] => [c]
  | fuel + 1, c1 :: c2 :: rest =>
    if isHWS c1 && isHWS c2 then
      32 :: collapseGo fuel (List.dropWhile isHWS (c2 :: rest))
    else
      c1 :: collapseGo fuel (c2 :: rest)

/-- The whitespace-collapsing step of clean_text_for_db. -/
def collapseWs (l : List Nat) : List Nat :=
  collapseGo l.length l

/-- Python str.strip(): drop str.isspace codepoints from the left end. -/
def lstripWs (l : List Nat) : List Nat :=
  l.dropWhile pyIsSpace

/-- Python str.strip(): drop str.isspace codepoints from the right end. -/
def rstripWs (l : List Nat) : List Nat :=
  (l.reverse.dropWhile pyIsSpace).reverse

/-- Python str.strip(): both ends. -/
def pyStrip (l : List Nat) : List Nat :=
  rstripWs (lstripWs l)

/-- Python slice out[:k] for an Int k, as used by `out[: max_len - 14]`:
a nonnegative bound takes a prefix, a negative bound drops codepoints from
the end (clamped at the empty list). -/
def headSlice (k : Int) (l : List Nat) : List Nat :=
  if 0 ≤ k then l.take k.toNat else l.take (l.length - (-k).toNat)

/-- Steps 1-5 of clean_text_for_db: NUL removal, NFC normalization, the
category-C filter, whitespace-run collapsing, and strip. -/
def cleanCore (nfc : List Nat → List Nat) (isC : Nat → Bool) (s : List Nat) :
    List Nat :=
  pyStrip (collapseWs ((nfc (s.filter fun c => !(c == 0))).filter (keepChar isC)))

/-- clean_text_for_db from backend/add_to_vector_db.py on a non-null string:
the cleaning pipeline followed by `if max_len and len(out) > max_len:
out = out[: max_len - 14] + " ... [truncated]"`.  The source default for
maxLen is 10000. -/
def clean_text_for_db (nfc : List Nat → List Nat) (isC : Nat → Bool)
    (s : List Nat) (maxLen : Nat) : List Nat :=
  let out := cleanCore nfc isC s
  if maxLen ≠ 0 ∧ maxLen < out.length then
    headSlice ((maxLen : Int) - 14) out ++ truncationMarker
  else out

/-- Concrete stand-in for the Unicode category-group-C test, used only to
instantiate witnesses and counterexamples: it agrees with the real Unicode
tables on the ASCII range (controls 0..31 and DEL are category Cc, all other
ASCII codepoints are not in group C), and maps every higher codepoint to
false. -/
def asciiCatC (c : Nat) : Bool :=
  c < 32 || c == 127

/-- Model of unicodedata.normalize("NFC", ·) on the codepoint strings the
nfc-recomposition counterexample traverses, agreeing with the real Unicode
tables there: the letter A followed by the control U+0001 and combining
grave U+0300 is already NFC-normal (the intervening control blocks
composition), while A followed directly by combining grave composes to the
single codepoint À (U+00C0); every other list is left unchanged, which is
all the counterexample evaluates. -/
def nfcAB (l : List Nat) : List Nat :=
  if l = [65, 768] then [192] else l

/-- No two adjacent codepoints both lie in the horizontal-whitespace class;
this is the shape the collapse step establishes. -/
abbrev NoWsRun (l : List Nat) : Prop :=
  List.Chain' (fun a b => isHWS a = false ∨ isHWS b = false) l

/-- Executable check for NoWsRun, used to evaluate it on concrete lists. -/
def noRunB : List Nat → Bool
  | [] => true
  | [_] => true
  | a :: b :: t => (!isHWS a || !isHWS b) && noRunB (b :: t)

/-- The inner while loop `_maybe_yield_from_carry` of
chunk_generator_from_file: while the carry holds at least chunk_size words,
yield the first chunk_size words and slide the carry forward by
chunk_size - chunk_overlap words.  The first argument is fuel; callers pass
the carry length, which suffices whenever chunk_overlap < chunk_size because
each iteration then discards at least one word. -/
def maybe_yield_from_carry (chunk_size chunk_overlap : Nat) :
    Nat → List α → List (List α) × List α
  | 0, carry => ([], carry)
  | fuel + 1, carry =>
    if chunk_size ≤ carry.length then
      let rec_result :=
        maybe_yield_from_carry chunk_size chunk_overlap fuel
          (carry.drop (chunk_size - chunk_overlap))
      (carry.take chunk_size :: rec_result.1, rec_result.2)
    else ([], carry)

/-- The word-feeding loop of chunk_generator_from_file: words from the
document (pages, then lines, for PDF; paragraphs and table cells, then
lines, for DOCX) are appended to the carry one at a time, the inner while
loop fires whenever the carry reaches chunk_size words, and a nonempty
carry is flushed as a final shorter chunk once the document is consumed.
A chunk is modelled as its list of words. -/
def chunkFeed (chunk_size chunk_overlap : Nat) :
    List α → List α → List (List α)
  | [], carry => if carry.isEmpty then [] else [carry]
  | w :: ws, carry =>
    let carry1 := carry ++ [w]
    if chunk_size ≤ carry1.length then
      let p := maybe_yield_from_carry chunk_size chunk_overlap carry1.length carry1
      p.1 ++ chunkFeed chunk_size chunk_overlap ws p.2
    else chunkFeed chunk_size chunk_overlap ws carry1

/-- Errors raised at the boundary of the ingestion functions. -/
inductive IngestError
  | fileNotFound
  | unsupportedExtension
  | parserMissing
  deriving DecidableEq, Repr

/-- Codepoints of the extension string pdf. -/
def pdfExt : List Nat := [112, 100, 102]

/-- Codepoints of the extension string docx. -/
def docxExt : List Nat := [100, 111, 99, 120]

/-- chunk_generator_from_file: a missing file raises FileNotFoundError, an
extension other than pdf or docx raises ValueError, and otherwise the
document's words are streamed into chunks.  The document is abstracted to
the sequence of whitespace-delimited words the page/paragraph walk would
produce, in document order. -/
def chunk_generator_from_file (isFile : Bool) (ext : List Nat)
    (words : List α) (chunk_size chunk_overlap : Nat) :
    Except IngestError (List (List α)) :=
  if !isFile then .error .fileNotFound
  else if !(ext == pdfExt || ext == docxExt) then .error .unsupportedExtension
  else .ok (chunkFeed chunk_size chunk_overlap words [])

/-- Reference recursion for the chunk stream: repeatedly take chunk_size
words and slide by chunk_size - chunk_overlap, flushing a final short chunk.
Fuel-indexed; the list length is always enough fuel when
chunk_overlap < chunk_size. -/
def chunksSpecGo (chunk_size chunk_overlap : Nat) :
    Nat → List α → List (List α)
  | 0, l => if l.isEmpty then [] else [l]
  | fuel + 1, l =>
    if l.isEmpty then []
    else if chunk_size ≤ l.length then
      l.take chunk_size ::
        chunksSpecGo chunk_size chunk_overlap fuel (l.drop (chunk_size - chunk_overlap))
    else [l]

/-- Reference form of the chunk stream over a whole word list. -/
def chunksSpec (chunk_size chunk_overlap : Nat) (l : List α) : List (List α) :=
  chunksSpecGo chunk_size chunk_overlap l.length l

/-- The exact number of chunks the streamer emits for an n-word document
with chunk_size c and overlap o (for o < c): zero chunks for an empty
document, one flushed chunk when n < c, and otherwise one full chunk per
window slide plus a final flushed chunk whenever words remain in the carry
after the last full chunk. -/
def chunkCount (c o n : Nat) : Nat :=
  if n = 0 then 0
  else if n < c then 1
  else ((n - c) / (c - o) + 1) + (if (n - c) % (c - o) + o = 0 then 0 else 1)

/-- The chunk-count formula asserted by the specification:
ceil(max(n - o, 0) / (c - o)). -/
def specChunkCount (c o n : Nat) : Nat :=
  (n - o + (c - o) - 1) / (c - o)

/-- Outcome of one embeddings API attempt, as seen by
generate_embedding_batch: `none` models any raised exception (network,
rate limit, 5xx, malformed response), `some vs` a response carrying the
vector list vs. -/
def attemptOutcome (provider : Nat → Option (List (List ℚ)))
    (nTexts : Nat) (attempt : Nat) : Option (List (List ℚ)) :=
  match provider attempt with
  | none => none
  | some vs => if vs.length = nTexts then some vs else none

/-- The retry loop of generate_embedding_batch: attempts are numbered from
1; a response whose embedding count mismatches the input count raises and
is handled by the same except-branch as any other failure; once
attempt >= max_retries the failure is re-raised (the error value records
the number of attempts consumed).  Fuel-indexed with fuel = remaining
attempts. -/
def generate_embedding_go (provider : Nat → Option (List (List ℚ)))
    (nTexts maxRetries : Nat) : Nat → Nat → Except Nat (List (List ℚ))
  | attempt, 0 => .error attempt
  | attempt, fuel + 1 =>
    let a := attempt + 1
    match attemptOutcome provider nTexts a with
    | some vs => .ok vs
    | none =>
      if maxRetries ≤ a then .error a
      else generate_embedding_go provider nTexts maxRetries a fuel

/-- generate_embedding_batch from backend/add_to_vector_db.py (the copy in
backend/ai/openai_client.py is identical): retry with backoff up to
maxRetries attempts; the source configures EMBEDDING_MAX_RETRIES = 5.
The backoff sleep only delays and is not modelled. -/
def generate_embedding_batch (provider : Nat → Option (List (List ℚ)))
    (texts : List (List Nat)) (maxRetries : Nat) : Except Nat (List (List ℚ)) :=
  generate_embedding_go provider texts.length maxRetries 0 maxRetries

/-- The source constant EMBEDDING_MAX_RETRIES. -/
def EMBEDDING_MAX_RETRIES : Nat := 5

/-- The source constant DB_INSERT_BATCH_SIZE. -/
def DB_INSERT_BATCH_SIZE : Nat := 64

/-- A persisted row as selected by query_similar_embeddings. -/
structure StoredRow where
  id : Nat
  filename : List Nat
  url : List Nat
  chunk_text : List Nat
  embedding : List ℚ
  deriving DecidableEq

/-- A search result: the selected row together with its computed distance. -/
structure SearchResult where
  row : StoredRow
  distance : ℚ
  deriving DecidableEq

/-- The store's distance computation for `embedding <-> query`: squared
Euclidean distance over the coordinates (the square root taken by the real
operator is monotone, so the resulting order, which is all the query uses,
is the same). -/
def dist2 (a b : List ℚ) : ℚ :=
  ((a.zip b).map fun p => (p.1 - p.2) * (p.1 - p.2)).sum

/-- Comparison used to model ORDER BY distance. -/
def distLE (a b : SearchResult) : Bool :=
  a.distance ≤ b.distance

/-- query_similar_embeddings from backend/add_to_vector_db.py: embed the
query text as a single-item batch, run
SELECT ... ORDER BY distance LIMIT top_k, and package the rows; the whole
body is wrapped in try/except and any failure (of the embedding call or of
the store) returns the empty list instead of raising.  The embedding
outcome and the store contents stand for what the external calls return:
`.error` on either side models a raised exception. -/
def query_similar_embeddings (embedOutcome : Except Unit (List ℚ))
    (store : Except Unit (List StoredRow)) (top_k : Nat) : List SearchResult :=
  match embedOutcome, store with
  | .ok qv, .ok rows =>
    (((rows.map fun r => SearchResult.mk r (dist2 r.embedding qv)).mergeSort
        distLE).take top_k)
  | _, _ => []

/-- Split a list into consecutive pages of at most pageSize elements, as
psycopg2's execute_values does with its page_size argument.  Fuel-indexed;
callers pass the list length. -/
def pagesGo (pageSize : Nat) : Nat → List α → List (List α)
  | _, [] => []
  | 0, l => [l]
  | fuel + 1, l =>
    l.take pageSize :: pagesGo pageSize fuel (l.drop pageSize)

/-- The pages of a list under a given page size. -/
def pages (pageSize : Nat) (l : List α) : List (List α) :=
  pagesGo pageSize l.length l

/-- store_metadata_and_embedding_batch from backend/add_to_vector_db.py on
a store that accepts the insert: rows are inserted through
extras.execute_values with page_size = DB_INSERT_BATCH_SIZE, which issues
one INSERT ... VALUES ... RETURNING id statement per page; the store
assigns SERIAL ids sequentially from nextId; cur.fetchall() afterwards
returns the rows of the last executed statement only.  The result records
the number of statements issued, the ids the function returns, and the
store's next free id.  (The defensive sanitization of the string fields and
the retry wrapper around the transaction do not affect the statement plan
or the returned ids on a successful attempt and are modelled elsewhere:
sanitization by clean_text_for_db, retries by the embedding retry loop.) -/
def store_metadata_and_embedding_batch (rows : List α) (nextId : Nat) :
    Nat × List Nat × Nat :=
  if rows.isEmpty then (0, [], nextId)
  else
    let pgs := pages DB_INSERT_BATCH_SIZE rows
    let lastLen := (pgs.getLastD []).length
    (pgs.length,
     List.range' (nextId + rows.length - lastLen) lastLen,
     nextId + rows.length)

/-- The environment ensure_table_exists runs against: whether connecting
succeeds, whether CREATE EXTENSION is permitted, and whether CREATE TABLE
succeeds. -/
structure DbEnv where
  connectOk : Bool
  extensionAllowed : Bool
  tableOk : Bool
  deriving DecidableEq

/-- The store state ensure_table_exists manipulates. -/
structure DbState where
  extensionEnabled : Bool
  tableExists : Bool
  deriving DecidableEq

/-- ensure_table_exists from backend/add_to_vector_db.py: connect; attempt
CREATE EXTENSION IF NOT EXISTS vector inside its own try/except whose
except-branch only prints and continues; then CREATE TABLE IF NOT EXISTS;
commit; the whole body sits in an outer try/except whose except-branch
prints and returns normally.  Transaction semantics: a failed CREATE
EXTENSION (extension not already present and creation not permitted)
aborts the psycopg2 transaction, so the subsequent CREATE TABLE raises
InFailedSqlTransaction into the outer except and nothing commits; a failed
CREATE TABLE likewise reaches the outer except before the commit, so an
extension created earlier in the same transaction is not persisted either.
Only the all-success path reaches conn.commit(), persisting both effects.
In every case the function returns normally: no error reaches the
caller. -/
def ensure_table_exists (env : DbEnv) (st : DbState) :
    DbState × Except String Unit :=
  if !env.connectOk then (st, .ok ())
  else if !(st.extensionEnabled || env.extensionAllowed) then (st, .ok ())
  else if !env.tableOk then (st, .ok ())
  else ({ extensionEnabled := true, tableExists := true }, .ok ())

/-- Infrastructure and data operations performed by ingest_file, in order;
used to state what happens before the extension check. -/
inductive IngestOp
  | bucketEnsure
  | tableEnsure
  | embedCall
  | insertCall
  deriving DecidableEq, Repr

/-- Codepoints of the label header "[chunk " that ingest_file prepends. -/
def chunkHeaderStart : List Nat := [91, 99, 104, 117, 110, 107, 32]

/-- Decimal digit codepoints of a positive number, most significant first,
as Python string formatting produces.  Fuel-indexed (the value itself is
always enough fuel). -/
def natDigitsGo : Nat → Nat → List Nat
  | 0, _ => []
  | _ + 1, 0 => []
  | f + 1, n => natDigitsGo f (n / 10) ++ [n % 10 + 48]

/-- Decimal digit codepoints of a positive number. -/
def natDigits (n : Nat) : List Nat :=
  natDigitsGo n n

/-- The " ".join of a chunk's words. -/
def joinWords : List (List Nat) → List Nat
  | [] => []
  | [w] => w
  | w :: ws => w ++ 32 :: joinWords ws

/-- The chunk label ingest_file builds for the k-th chunk (1-based):
"[chunk k] " followed by the chunk text (the stripped space-join of its
words, as yielded by the generator). -/
def chunkLabel (k : Nat) (chunk : List (List Nat)) : List Nat :=
  chunkHeaderStart ++ natDigits k ++ [93, 32] ++ pyStrip (joinWords chunk)

/-- The chunk_text column values ingest_file inserts for a document whose
word stream is `words`: the generator's chunks, labelled with their 1-based
sequence number and passed through clean_text_for_db with the default
max_len of 10000.  Batching by embedding_batch_size and
db_insert_batch_size only groups these values into provider calls and
insert statements and does not change the values or their order. -/
def ingest_file_chunk_texts (nfc : List Nat → List Nat) (isC : Nat → Bool)
    (chunk_size chunk_overlap : Nat) (words : List (List Nat)) : List (List Nat) :=
  (List.range (chunkFeed chunk_size chunk_overlap words []).length).zipWith
    (fun i chunk => clean_text_for_db nfc isC (chunkLabel (i + 1) chunk) 10000)
    (chunkFeed chunk_size chunk_overlap words [])

/-- The operation trace of ingest_file up to and including its extension
check, together with what the check decides: create_bucket_if_not_exists
and ensure_table_exists are always called first, and only then is the
extension validated against pdf/docx. -/
def ingest_file_boundary (ext : List Nat) :
    List IngestOp × Except IngestError Unit :=
  ([IngestOp.bucketEnsure, IngestOp.tableEnsure],
   if ext == pdfExt || ext == docxExt then .ok ()
   else .error .unsupportedExtension)

/-! ## Lemmas about the whitespace-collapsing step -/

theorem collapseGo_nil (f : Nat) : collapseGo f ([] : List Nat) = [] := by
  cases f <;> rfl

theorem collapseGo_cons2_pos (f c1 c2 : Nat) (rest : List Nat)
    (h1 : isHWS c1 = true) (h2 : isHWS c2 = true) :
    collapseGo (f + 1) (c1 :: c2 :: rest) =
      32 :: collapseGo f (List.dropWhile isHWS rest) := by
  simp [collapseGo, h1, h2, List.dropWhile_cons]

theorem collapseGo_cons2_neg (f c1 c2 : Nat) (rest : List Nat)
    (h : isHWS c1 = false ∨ isHWS c2 = false) :
    collapseGo (f + 1) (c1 :: c2 :: rest) = c1 :: collapseGo f (c2 :: rest) := by
  rcases h with h | h <;> simp [collapseGo, h]

theorem collapseGo_eq_self (f : Nat) (l : List Nat) (hrun : NoWsRun l) :
    collapseGo f l = l := by
  induction f generalizing l with
  | zero => rfl
  | succ f ih =>
    match l with
    | [] => rfl
    | [c] => rfl
    | c1 :: c2 :: rest =>
      have hrel : isHWS c1 = false ∨ isHWS c2 = false :=
        (List.chain'_cons.mp hrun).1
      rw [collapseGo_cons2_neg f c1 c2 rest hrel]
      exact congrArg (c1 :: ·) (ih (c2 :: rest) hrun.tail)

theorem mem_collapseGo (f : Nat) (l : List Nat) (c : Nat)
    (hc : c ∈ collapseGo f l) : c ∈ l ∨ c = 32 := by
  induction f generalizing l with
  | zero => exact Or.inl hc
  | succ f ih =>
    match l with
    | [] => exact Or.inl hc
    | [a] => exact Or.inl hc
    | c1 :: c2 :: rest =>
      by_cases h1 : isHWS c1 = true
      · by_cases h2 : isHWS c2 = true
        · rw [collapseGo_cons2_pos f c1 c2 rest h1 h2] at hc
          rcases List.mem_cons.mp hc with h | h
          · exact Or.inr h
          · rcases ih _ h with h' | h'
            · exact Or.inl (List.mem_cons_of_mem c1 (List.mem_cons_of_mem c2
                ((List.dropWhile_sublist isHWS).mem h')))
            · exact Or.inr h'
        · rw [collapseGo_cons2_neg f c1 c2 rest
            (Or.inr (Bool.eq_false_iff.mpr h2))] at hc
          rcases List.mem_cons.mp hc with h | h
          · exact Or.inl (by simp [h])
          · rcases ih _ h with h' | h'
            · exact Or.inl (List.mem_cons_of_mem c1 h')
            · exact Or.inr h'
      · rw [collapseGo_cons2_neg f c1 c2 rest
          (Or.inl (Bool.eq_false_iff.mpr h1))] at hc
        rcases List.mem_cons.mp hc with h | h
        · exact Or.inl (by simp [h])
        · rcases ih _ h with h' | h'
          · exact Or.inl (List.mem_cons_of_mem c1 h')
          · exact Or.inr h'

theorem head?_dropWhile_false (p : Nat → Bool) (l : List Nat) (c : Nat)
    (h : (l.dropWhile p).head? = some c) : p c = false := by
  induction l with
  | nil => simp at h
  | cons a t ih =>
    rw [List.dropWhile_cons] at h
    by_cases hp : p a = true
    · exact ih (by simpa [hp] using h)
    · simp only [hp, Bool.false_eq_true, if_false, List.head?_cons,
        Option.some.injEq] at h
      simpa [← h] using hp

theorem head?_collapseGo (f : Nat) (l : List Nat) (c : Nat)
    (hc : (collapseGo f l).head? = some c) :
    l.head? = some c ∨ (c = 32 ∧ ∃ a, l.head? = some a ∧ isHWS a = true) := by
  match f, l with
  | 0, l => exact Or.inl hc
  | _ + 1, [] => exact Or.inl hc
  | _ + 1, [a] => exact Or.inl hc
  | f + 1, c1 :: c2 :: rest =>
    by_cases h1 : isHWS c1 = true
    · by_cases h2 : isHWS c2 = true
      · rw [collapseGo_cons2_pos f c1 c2 rest h1 h2] at hc
        simp only [List.head?_cons, Option.some.injEq] at hc
        exact Or.inr ⟨hc.symm, c1, rfl, h1⟩
      · rw [collapseGo_cons2_neg f c1 c2 rest
          (Or.inr (Bool.eq_false_iff.mpr h2))] at hc
        simp only [List.head?_cons, Option.some.injEq] at hc
        exact Or.inl (by simp [hc])
    · rw [collapseGo_cons2_neg f c1 c2 rest
        (Or.inl (Bool.eq_false_iff.mpr h1))] at hc
      simp only [List.head?_cons, Option.some.injEq] at hc
      exact Or.inl (by simp [hc])

theorem noWsRun_collapseGo (f : Nat) (l : List Nat) (hf : l.length ≤ f) :
    NoWsRun (collapseGo f l) := by
  induction f generalizing l with
  | zero =>
    have : l = [] := List.length_eq_zero.mp (Nat.le_zero.mp hf)
    subst this
    exact List.chain'_nil
  | succ f ih =>
    match l with
    | [] => exact List.chain'_nil
    | [a] => exact List.chain'_singleton a
    | c1 :: c2 :: rest =>
      by_cases h1 : isHWS c1 = true
      · by_cases h2 : isHWS c2 = true
        · rw [collapseGo_cons2_pos f c1 c2 rest h1 h2]
          have hlen : (List.dropWhile isHWS rest).length ≤ f := by
            calc (List.dropWhile isHWS rest).length
                ≤ rest.length := (List.dropWhile_sublist isHWS).length_le
              _ ≤ f := by
                  simp only [List.length_cons] at hf
                  omega
          have hchain := ih _ hlen
          match hR : collapseGo f (List.dropWhile isHWS rest) with
          | [] => exact List.chain'_singleton 32
          | d :: R' =>
            refine List.chain'_cons.mpr ⟨?_, hR ▸ hchain⟩
            rcases head?_collapseGo f _ d (by rw [hR]; rfl) with hh | ⟨_, a, ha, hahws⟩
            · exact Or.inr (head?_dropWhile_false isHWS _ d hh)
            · exact absurd hahws (by
                simpa using head?_dropWhile_false isHWS _ a ha)
        · have hrel : isHWS c1 = false ∨ isHWS c2 = false :=
            Or.inr (Bool.eq_false_iff.mpr h2)
          rw [collapseGo_cons2_neg f c1 c2 rest hrel]
          have hlen : (c2 :: rest).length ≤ f := by
            simp only [List.length_cons] at hf ⊢
            omega
          have hchain := ih _ hlen
          match hR : collapseGo f (c2 :: rest) with
          | [] => exact List.chain'_singleton c1
          | d :: R' =>
            refine List.chain'_cons.mpr ⟨?_, hR ▸ hchain⟩
            rcases head?_collapseGo f _ d (by rw [hR]; rfl) with hh | ⟨_, a, ha, hahws⟩
            · simp only [List.head?_cons, Option.some.injEq] at hh
              subst hh
              exact Or.inr (Bool.eq_false_iff.mpr h2)
            · simp only [List.head?_cons, Option.some.injEq] at ha
              subst ha
              exact absurd hahws h2
      · have hrel : isHWS c1 = false ∨ isHWS c2 = false :=
          Or.inl (Bool.eq_false_iff.mpr h1)
        rw [collapseGo_cons2_neg f c1 c2 rest hrel]
        have hlen : (c2 :: rest).length ≤ f := by
          simp only [List.length_cons] at hf ⊢
          omega
        have hchain := ih _ hlen
        match hR : collapseGo f (c2 :: rest) with
        | [] => exact List.chain'_singleton c1
        | d :: R' =>
          refine List.chain'_cons.mpr ⟨?_, hR ▸ hchain⟩
          exact Or.inl (Bool.eq_false_iff.mpr h1)

theorem collapseGo_append_nonhws (A : List Nat) (l : List Nat) (f : Nat)
    (hA : ∀ c ∈ A, isHWS c = false) (hf : A.length + l.length ≤ f) :
    collapseGo f (A ++ l) = A ++ collapseGo (f - A.length) l := by
  induction A generalizing f with
  | nil => simp
  | cons a A' ih =>
    have ha : isHWS a = false := hA a (by simp)
    obtain ⟨f', rfl⟩ : ∃ f', f = f' + 1 :=
      ⟨f - 1, by simp only [List.length_cons] at hf; omega⟩
    match hAl : A' ++ l with
    | [] =>
      rcases List.append_eq_nil.mp hAl with ⟨hA', hl⟩
      subst hA'; subst hl
      simp [collapseGo, collapseGo_nil]
    | c2 :: rest =>
      have hstep : collapseGo (f' + 1) (a :: c2 :: rest) =
          a :: collapseGo f' (c2 :: rest) :=
        collapseGo_cons2_neg f' a c2 rest (Or.inl ha)
      rw [show (a :: A') ++ l = a :: (A' ++ l) from rfl, hAl, hstep, ← hAl]
      have hf2 : A'.length + l.length ≤ f' := by
        have h3 := hf
        simp only [List.length_cons] at h3
        omega
      have hrec := ih f' (fun c hc => hA c (by simp [hc])) hf2
      rw [hrec]
      have harith : f' + 1 - (a :: A').length = f' - A'.length := by
        simp only [List.length_cons]
        omega
      rw [harith]
      simp

/-! ## Lemmas about strip and the cleaning core -/

theorem exists_append_dropWhile (p : Nat → Bool) (l : List Nat) :
    ∃ t, t ++ l.dropWhile p = l := by
  induction l with
  | nil => exact ⟨[], rfl⟩
  | cons a l ih =>
    by_cases hp : p a = true
    · obtain ⟨t, ht⟩ := ih
      exact ⟨a :: t, by simp [List.dropWhile_cons, hp, ht]⟩
    · exact ⟨[], by simp [List.dropWhile_cons, hp]⟩

theorem noWsRun_dropWhile (p : Nat → Bool) (l : List Nat) (h : NoWsRun l) :
    NoWsRun (l.dropWhile p) := by
  obtain ⟨t, ht⟩ := exists_append_dropWhile p l
  rw [← ht] at h
  exact (List.chain'_append.mp h).2.1

theorem noWsRun_reverse (l : List Nat) (h : NoWsRun l) : NoWsRun l.reverse :=
  List.chain'_reverse.mpr (h.imp fun _ _ hab => Or.symm hab)

theorem mem_pyStrip (l : List Nat) (c : Nat) (h : c ∈ pyStrip l) : c ∈ l := by
  unfold pyStrip rstripWs lstripWs at h
  rw [List.mem_reverse] at h
  have h1 := (List.dropWhile_sublist pyIsSpace).mem h
  rw [List.mem_reverse] at h1
  exact (List.dropWhile_sublist pyIsSpace).mem h1

theorem noWsRun_pyStrip (l : List Nat) (h : NoWsRun l) : NoWsRun (pyStrip l) := by
  unfold pyStrip rstripWs lstripWs
  exact noWsRun_reverse _ (noWsRun_dropWhile _ _ (noWsRun_reverse _
    (noWsRun_dropWhile _ _ h)))

theorem pyStrip_append_eq (l : List Nat) : ∃ t, pyStrip l ++ t = lstripWs l := by
  obtain ⟨s, hs⟩ := exists_append_dropWhile pyIsSpace (lstripWs l).reverse
  refine ⟨s.reverse, ?_⟩
  have h2 := congrArg List.reverse hs
  simpa [List.reverse_append, pyStrip, rstripWs] using h2

theorem head?_pyStrip (l : List Nat) (c : Nat)
    (h : (pyStrip l).head? = some c) : pyIsSpace c = false := by
  obtain ⟨t, ht⟩ := pyStrip_append_eq l
  have hm : (lstripWs l).head? = some c := by
    rw [← ht, List.head?_append, h]
    rfl
  exact head?_dropWhile_false pyIsSpace l c hm

theorem getLast?_pyStrip (l : List Nat) (c : Nat)
    (h : (pyStrip l).getLast? = some c) : pyIsSpace c = false := by
  unfold pyStrip rstripWs at h
  rw [List.getLast?_reverse] at h
  exact head?_dropWhile_false pyIsSpace _ c h

theorem pyStrip_eq_self (l : List Nat)
    (hh : ∀ c, l.head? = some c → pyIsSpace c = false)
    (hl : ∀ c, l.getLast? = some c → pyIsSpace c = false) :
    pyStrip l = l := by
  have h1 : lstripWs l = l := by
    unfold lstripWs
    cases l with
    | nil => rfl
    | cons a t =>
      rw [List.dropWhile_cons, hh a rfl]
      simp
  unfold pyStrip rstripWs
  rw [h1]
  have h2 : l.reverse.dropWhile pyIsSpace = l.reverse := by
    cases hr : l.reverse with
    | nil => rfl
    | cons a t =>
      have hla : l.getLast? = some a := by
        rw [List.getLast?_eq_head?_reverse, hr]
        rfl
      rw [List.dropWhile_cons, hl a hla]
      simp
  rw [h2, List.reverse_reverse]

theorem mem_cleanCore (nfc : List Nat → List Nat) (isC : Nat → Bool)
    (s : List Nat) (c : Nat) (hc : c ∈ cleanCore nfc isC s) :
    keepChar isC c = true ∨ c = 32 := by
  unfold cleanCore collapseWs at hc
  have h1 := mem_pyStrip _ c hc
  rcases mem_collapseGo _ _ c h1 with h2 | h2
  · exact Or.inl (List.mem_filter.mp h2).2
  · exact Or.inr h2

theorem noWsRun_cleanCore (nfc : List Nat → List Nat) (isC : Nat → Bool)
    (s : List Nat) : NoWsRun (cleanCore nfc isC s) := by
  unfold cleanCore collapseWs
  exact noWsRun_pyStrip _ (noWsRun_collapseGo _ _ le_rfl)

theorem head?_cleanCore (nfc : List Nat → List Nat) (isC : Nat → Bool)
    (s : List Nat) (c : Nat) (h : (cleanCore nfc isC s).head? = some c) :
    pyIsSpace c = false := by
  unfold cleanCore at h
  exact head?_pyStrip _ c h

theorem getLast?_cleanCore (nfc : List Nat → List Nat) (isC : Nat → Bool)
    (s : List Nat) (c : Nat) (h : (cleanCore nfc isC s).getLast? = some c) :
    pyIsSpace c = false := by
  unfold cleanCore at h
  exact getLast?_pyStrip _ c h

theorem cleanCore_eq_self (nfc : List Nat → List Nat) (isC : Nat → Bool)
    (y : List Nat)
    (hz : ∀ c ∈ y, c ≠ 0)
    (hk : ∀ c ∈ y, keepChar isC c = true)
    (hnfc : nfc y = y)
    (hrun : NoWsRun y)
    (hh : ∀ c, y.head? = some c → pyIsSpace c = false)
    (hl : ∀ c, y.getLast? = some c → pyIsSpace c = false) :
    cleanCore nfc isC y = y := by
  unfold cleanCore
  have h1 : y.filter (fun c => !(c == 0)) = y :=
    List.filter_eq_self.mpr fun a ha => by simpa using hz a ha
  rw [h1, hnfc]
  have h2 : y.filter (keepChar isC) = y := List.filter_eq_self.mpr hk
  rw [h2]
  unfold collapseWs
  rw [collapseGo_eq_self _ _ hrun]
  exact pyStrip_eq_self y hh hl

theorem clean_eq_of_core (nfc : List Nat → List Nat) (isC : Nat → Bool)
    (y : List Nat) (maxLen : Nat) (hcore : cleanCore nfc isC y = y)
    (hlen : ¬(maxLen ≠ 0 ∧ maxLen < y.length)) :
    clean_text_for_db nfc isC y maxLen = y := by
  simp only [clean_text_for_db, hcore]
  rw [if_neg hlen]

/-! ## Characters of the sanitizer output -/

theorem noWsRun_of_forall_nonhws (l : List Nat)
    (h : ∀ c ∈ l, isHWS c = false) : NoWsRun l := by
  induction l with
  | nil => exact List.chain'_nil
  | cons a t ih =>
    cases t with
    | nil => exact List.chain'_singleton a
    | cons b t' =>
      exact List.chain'_cons.mpr ⟨Or.inl (h a (by simp)),
        ih fun c hc => h c (List.mem_cons_of_mem a hc)⟩

theorem mem_clean_text_for_db (nfc : List Nat → List Nat) (isC : Nat → Bool)
    (s : List Nat) (maxLen : Nat) (c : Nat)
    (hc : c ∈ clean_text_for_db nfc isC s maxLen) :
    keepChar isC c = true ∨ c = 32 ∨ c ∈ truncationMarker := by
  simp only [clean_text_for_db] at hc
  by_cases hcond : maxLen ≠ 0 ∧ maxLen < (cleanCore nfc isC s).length
  · rw [if_pos hcond] at hc
    rcases List.mem_append.mp hc with h | h
    · have hmem : c ∈ cleanCore nfc isC s := by
        unfold headSlice at h
        by_cases h0 : (0 : Int) ≤ (maxLen : Int) - 14
        · rw [if_pos h0] at h
          exact (List.take_sublist _ _).mem h
        · rw [if_neg h0] at h
          exact (List.take_sublist _ _).mem h
      rcases mem_cleanCore nfc isC s c hmem with h' | h'
      · exact Or.inl h'
      · exact Or.inr (Or.inl h')
    · exact Or.inr (Or.inr h)
  · rw [if_neg hcond] at hc
    rcases mem_cleanCore nfc isC s c hc with h' | h'
    · exact Or.inl h'
    · exact Or.inr (Or.inl h')

/-- C7: for every input, the output of clean_text_for_db contains no NUL and
no codepoint of Unicode category group C other than tab, newline and
carriage return.  The hypotheses record the relevant true facts of the
Unicode tables: NUL is a control, and neither the space codepoint nor any
codepoint of the truncation marker lies in group C. -/
theorem clean_text_for_db_no_control (nfc : List Nat → List Nat)
    (isC : Nat → Bool) (s : List Nat) (maxLen : Nat)
    (h0 : isC 0 = true) (h32 : isC 32 = false)
    (hmk : ∀ c ∈ truncationMarker, isC c = false) :
    ∀ c ∈ clean_text_for_db nfc isC s maxLen,
      c ≠ 0 ∧ (isC c = true → c = 9 ∨ c = 10 ∨ c = 13) := by
  intro c hc
  rcases mem_clean_text_for_db nfc isC s maxLen c hc with h | h | h
  · constructor
    · rintro rfl
      simp [keepChar, h0] at h
    · intro hC
      have h2 := h
      simp [keepChar, hC] at h2
      tauto
  · subst h
    exact ⟨by decide, fun hC => absurd hC (by simp [h32])⟩
  · have h0' : (0 : Nat) ∉ truncationMarker := by decide
    refine ⟨fun hc0 => h0' (hc0 ▸ h), fun hC => absurd hC ?_⟩
    simp [hmk c h]

/-- Witness for C7 at a concrete ASCII input containing NUL and control
characters, with the concrete category function, specialized to the
letter a that survives into the output. -/
theorem clean_text_for_db_no_control_witness :
    (97 : Nat) ≠ 0 ∧ (asciiCatC 97 = true → 97 = 9 ∨ 97 = 10 ∨ 97 = 13) :=
  clean_text_for_db_no_control id asciiCatC [97, 0, 1, 9, 98] 10000
    (by decide) (by decide) (by decide) 97 (by decide)

theorem cleanCore_replicate97 (n : Nat) :
    cleanCore id asciiCatC (List.replicate n 97) = List.replicate n 97 := by
  apply cleanCore_eq_self
  · intro c hc
    have := (List.mem_replicate.mp hc).2
    subst this
    decide
  · intro c hc
    have := (List.mem_replicate.mp hc).2
    subst this
    decide
  · rfl
  · apply noWsRun_of_forall_nonhws
    intro c hc
    have := (List.mem_replicate.mp hc).2
    subst this
    decide
  · intro c hc
    rw [List.head?_replicate] at hc
    by_cases hn : n = 0
    · simp [hn] at hc
    · simp only [hn, if_false] at hc
      have : c = 97 := by simpa using hc.symm
      subst this
      decide
  · intro c hc
    rw [List.getLast?_eq_head?_reverse, List.reverse_replicate,
      List.head?_replicate] at hc
    by_cases hn : n = 0
    · simp [hn] at hc
    · simp only [hn, if_false] at hc
      have : c = 97 := by simpa using hc.symm
      subst this
      decide

/-- C5: at the default budget max_len = 10000, an input of 10001 copies of
the letter a is truncated to 10002 codepoints, not 10000: the code removes
the last 14 codepoints of the budget but appends the 16-codepoint marker.
This contradicts the function docstring, which promises truncation to
max_len characters. -/
theorem clean_text_for_db_truncated_length :
    (clean_text_for_db id asciiCatC (List.replicate 10001 97) 10000).length =
      10002 := by
  have hcore := cleanCore_replicate97 10001
  simp only [clean_text_for_db, hcore]
  rw [if_pos ⟨by decide, by rw [List.length_replicate]; decide⟩]
  unfold headSlice
  have hcast : ((10000 : Nat) : Int) - 14 = (9986 : Int) := by norm_num
  rw [hcast, if_pos (by norm_num : (0 : Int) ≤ (9986 : Int))]
  have htn : (9986 : Int).toNat = 9986 := rfl
  rw [htn, List.length_append, List.length_take, List.length_replicate]
  decide

/-! ## Idempotence of the sanitizer -/

theorem noWsRun_of_noRunB (l : List Nat) (h : noRunB l = true) : NoWsRun l := by
  induction l with
  | nil => exact List.chain'_nil
  | cons a t ih =>
    cases t with
    | nil => exact List.chain'_singleton a
    | cons b t' =>
      have h2 : (isHWS a = false ∨ isHWS b = false) ∧ noRunB (b :: t') = true := by
        simpa [noRunB] using h
      exact List.chain'_cons.mpr ⟨h2.1, ih h2.2⟩

theorem head?_take (l : List Nat) (n : Nat) (hn : n ≠ 0) :
    (l.take n).head? = l.head? := by
  cases l with
  | nil => simp
  | cons a t =>
    obtain ⟨m, rfl⟩ : ∃ m, n = m + 1 := ⟨n - 1, by omega⟩
    simp [List.take_succ_cons]

theorem getLast?_cons_replicate (a b : Nat) (n : Nat) (hn : n ≠ 0) :
    (a :: List.replicate n b).getLast? = some b := by
  rw [List.getLast?_eq_head?_reverse, List.reverse_cons, List.reverse_replicate,
    List.head?_append, List.head?_replicate]
  simp [hn]

theorem noWsRun_append_cons (A Bb : List Nat) (d : Nat)
    (hA : ∀ c ∈ A, isHWS c = false) (hBb : ∀ c ∈ Bb, isHWS c = false) :
    NoWsRun (A ++ d :: Bb) := by
  refine List.chain'_append.mpr ⟨noWsRun_of_forall_nonhws A hA, ?_, ?_⟩
  · cases Bb with
    | nil => exact List.chain'_singleton d
    | cons b t =>
      refine List.chain'_cons.mpr ⟨Or.inr (hBb b (by simp)), ?_⟩
      exact noWsRun_of_forall_nonhws _ hBb
  · intro x hx y _
    have hxA : x ∈ A := by
      rw [List.getLast?_eq_head?_reverse] at hx
      exact List.mem_reverse.mp (List.mem_of_mem_head? hx)
    exact Or.inl (hA x hxA)

theorem headSlice_budget (l : List Nat) :
    headSlice (((10000 : Nat) : Int) - 14) l = l.take 9986 := by
  unfold headSlice
  have hcast : ((10000 : Nat) : Int) - 14 = (9986 : Int) := by norm_num
  rw [hcast, if_pos (by norm_num : (0 : Int) ≤ (9986 : Int))]
  rfl

theorem collapseWs_append_nonhws (A l : List Nat)
    (hA : ∀ c ∈ A, isHWS c = false) :
    collapseWs (A ++ l) = A ++ collapseGo l.length l := by
  unfold collapseWs
  rw [List.length_append,
    collapseGo_append_nonhws A l (A.length + l.length) hA le_rfl]
  congr 2
  omega

theorem clean_core_char_props (nfc : List Nat → List Nat) (isC : Nat → Bool)
    (x : List Nat) (h0 : isC 0 = true) (h32 : isC 32 = false) :
    (∀ c ∈ cleanCore nfc isC x, c ≠ 0) ∧
      ∀ c ∈ cleanCore nfc isC x, keepChar isC c = true := by
  constructor
  · intro c hc
    rcases mem_cleanCore nfc isC x c hc with h | h
    · rintro rfl
      simp [keepChar, h0] at h
    · subst h
      decide
  · intro c hc
    rcases mem_cleanCore nfc isC x c hc with h | h
    · exact h
    · subst h
      simp [keepChar, h32]

/-- C6 counterexample: sanitizing twice is not the same as sanitizing once.
For the ASCII input of 9985 letters a, one tab, and 100 letters b (10086
codepoints), the first pass truncates right after the tab, leaving
"...a\x09 ... [truncated]"; the second pass collapses the tab and the
marker's leading space into a single space and re-truncates, producing a
different string.  On this pure-ASCII input `id` and `asciiCatC` agree with
the real NFC normalization and Unicode category tables. -/
theorem clean_text_for_db_not_idempotent :
    clean_text_for_db id asciiCatC
        (clean_text_for_db id asciiCatC
          (List.replicate 9985 97 ++ 9 :: List.replicate 100 98) 10000) 10000 ≠
      clean_text_for_db id asciiCatC
        (List.replicate 9985 97 ++ 9 :: List.replicate 100 98) 10000 := by
  have hB : ∀ c ∈ List.replicate 9985 (97 : Nat), isHWS c = false := by
    intro c hc
    have h := (List.mem_replicate.mp hc).2
    subst h
    decide
  have hcore1 : cleanCore id asciiCatC
      (List.replicate 9985 97 ++ 9 :: List.replicate 100 98) =
      List.replicate 9985 97 ++ 9 :: List.replicate 100 98 := by
    apply cleanCore_eq_self
    · intro c hc
      rcases List.mem_append.mp hc with h | h
      · have h2 := (List.mem_replicate.mp h).2
        subst h2
        decide
      · rcases List.mem_cons.mp h with h | h
        · subst h
          decide
        · have h2 := (List.mem_replicate.mp h).2
          subst h2
          decide
    · intro c hc
      rcases List.mem_append.mp hc with h | h
      · have h2 := (List.mem_replicate.mp h).2
        subst h2
        decide
      · rcases List.mem_cons.mp h with h | h
        · subst h
          decide
        · have h2 := (List.mem_replicate.mp h).2
          subst h2
          decide
    · rfl
    · refine noWsRun_append_cons _ _ 9 hB ?_
      intro c hc
      have h2 := (List.mem_replicate.mp hc).2
      subst h2
      decide
    · intro c hc
      have hh : (List.replicate 9985 (97 : Nat) ++
          9 :: List.replicate 100 98).head? = some 97 := by
        rw [List.head?_append, List.head?_replicate]
        norm_num
      rw [hh] at hc
      have h2 : c = 97 := by simpa using hc.symm
      subst h2
      decide
    · intro c hc
      have hl2 : (List.replicate 9985 (97 : Nat) ++
          9 :: List.replicate 100 98).getLast? = some 98 := by
        rw [List.getLast?_append, getLast?_cons_replicate 9 98 100 (by norm_num)]
        rfl
      rw [hl2] at hc
      have h2 : c = 98 := by simpa using hc.symm
      subst h2
      decide
  have hxlen : (List.replicate 9985 (97 : Nat) ++
      9 :: List.replicate 100 98).length = 10086 := by
    simp only [List.length_append, List.length_cons, List.length_replicate]
  have htake : (List.replicate 9985 (97 : Nat) ++
      9 :: List.replicate 100 98).take 9986 = List.replicate 9985 97 ++ [9] := by
    have hsplit : List.replicate 9985 (97 : Nat) ++ 9 :: List.replicate 100 98 =
        (List.replicate 9985 97 ++ [9]) ++ List.replicate 100 98 := by
      rw [List.append_assoc]
      rfl
    rw [hsplit]
    apply List.take_left'
    simp only [List.length_append, List.length_cons, List.length_nil,
      List.length_replicate]
  have hclean1 : clean_text_for_db id asciiCatC
      (List.replicate 9985 97 ++ 9 :: List.replicate 100 98) 10000 =
      (List.replicate 9985 97 ++ [9]) ++ truncationMarker := by
    simp only [clean_text_for_db, hcore1]
    rw [if_pos ⟨by decide, by rw [hxlen]; decide⟩, headSlice_budget, htake]
  have hyassoc : (List.replicate 9985 (97 : Nat) ++ [9]) ++ truncationMarker =
      List.replicate 9985 97 ++ 9 :: truncationMarker := by
    rw [List.append_assoc]
    rfl
  have hmemy : ∀ c ∈ List.replicate 9985 (97 : Nat) ++ 9 :: truncationMarker,
      c = 97 ∨ c = 9 ∨ c ∈ truncationMarker := by
    intro c hc
    rcases List.mem_append.mp hc with h | h
    · exact Or.inl (List.mem_replicate.mp h).2
    · rcases List.mem_cons.mp h with h | h
      · exact Or.inr (Or.inl h)
      · exact Or.inr (Or.inr h)
  have hfilter0 : (List.replicate 9985 (97 : Nat) ++ 9 :: truncationMarker).filter
      (fun c => !(c == 0)) = List.replicate 9985 97 ++ 9 :: truncationMarker := by
    apply List.filter_eq_self.mpr
    intro c hc
    rcases hmemy c hc with h | h | h
    · subst h
      decide
    · subst h
      decide
    · exact (by decide : ∀ c ∈ truncationMarker, (!(c == 0)) = true) c h
  have hfilterK : (List.replicate 9985 (97 : Nat) ++ 9 :: truncationMarker).filter
      (keepChar asciiCatC) = List.replicate 9985 97 ++ 9 :: truncationMarker := by
    apply List.filter_eq_self.mpr
    intro c hc
    rcases hmemy c hc with h | h | h
    · subst h
      decide
    · subst h
      decide
    · exact (by decide : ∀ c ∈ truncationMarker, keepChar asciiCatC c = true) c h
  have hcollapse : collapseWs (List.replicate 9985 (97 : Nat) ++
      9 :: truncationMarker) = List.replicate 9985 97 ++
      32 :: [46, 46, 46, 32, 91, 116, 114, 117, 110, 99, 97, 116, 101, 100, 93] := by
    rw [collapseWs_append_nonhws _ _ hB]
    congr 1
  have hcore2 : cleanCore id asciiCatC
      (List.replicate 9985 97 ++ 9 :: truncationMarker) =
      List.replicate 9985 97 ++
        32 :: [46, 46, 46, 32, 91, 116, 114, 117, 110, 99, 97, 116, 101, 100, 93] := by
    unfold cleanCore
    rw [hfilter0]
    simp only [id_eq]
    rw [hfilterK, hcollapse]
    apply pyStrip_eq_self
    · intro c hc
      have hh : (List.replicate 9985 (97 : Nat) ++
          32 :: [46, 46, 46, 32, 91, 116, 114, 117, 110, 99, 97, 116, 101, 100,
            93]).head? = some 97 := by
        rw [List.head?_append, List.head?_replicate]
        norm_num
      rw [hh] at hc
      have h2 : c = 97 := by simpa using hc.symm
      subst h2
      decide
    · intro c hc
      have hl2 : (List.replicate 9985 (97 : Nat) ++
          32 :: [46, 46, 46, 32, 91, 116, 114, 117, 110, 99, 97, 116, 101, 100,
            93]).getLast? = some 93 := by
        rw [List.getLast?_append]
        rfl
      rw [hl2] at hc
      have h2 : c = 93 := by simpa using hc.symm
      subst h2
      decide
  have hy2len : (List.replicate 9985 (97 : Nat) ++
      32 :: [46, 46, 46, 32, 91, 116, 114, 117, 110, 99, 97, 116, 101, 100,
        93]).length = 10001 := by
    simp only [List.length_append, List.length_cons, List.length_nil,
      List.length_replicate]
  have htake2 : (List.replicate 9985 (97 : Nat) ++
      32 :: [46, 46, 46, 32, 91, 116, 114, 117, 110, 99, 97, 116, 101, 100,
        93]).take 9986 = List.replicate 9985 97 ++ [32] := by
    have hsplit : List.replicate 9985 (97 : Nat) ++
        32 :: [46, 46, 46, 32, 91, 116, 114, 117, 110, 99, 97, 116, 101, 100,
          93] = (List.replicate 9985 97 ++ [32]) ++
          [46, 46, 46, 32, 91, 116, 114, 117, 110, 99, 97, 116, 101, 100, 93] := by
      rw [List.append_assoc]
      rfl
    rw [hsplit]
    apply List.take_left'
    simp only [List.length_append, List.length_cons, List.length_nil,
      List.length_replicate]
  have hclean2 : clean_text_for_db id asciiCatC
      (List.replicate 9985 97 ++ 9 :: truncationMarker) 10000 =
      (List.replicate 9985 97 ++ [32]) ++ truncationMarker := by
    simp only [clean_text_for_db, hcore2]
    rw [if_pos ⟨by decide, by rw [hy2len]; decide⟩, headSlice_budget, htake2]
  rw [hclean1, hyassoc, hclean2]
  intro h
  rw [List.append_assoc] at h
  have h2 := List.append_cancel_left h
  simp at h2

/-- C6 (amended): clean_text_for_db is idempotent for every input whose
first-pass output is NFC-invariant (hypothesis hnfc: re-normalizing that
output changes nothing) and whose cleaned text either fits in the budget
or is truncated with a kept prefix (the first max_len - 14 codepoints)
not ending in a horizontal whitespace codepoint.  Both provisos are
necessary: a tab at the cut is collapsed with the marker space by the
second pass (see the counterexample above this development proves), and
dropping a category-C codepoint can expose a newly composable pair that
the second pass's NFC composes (see the recomposition counterexample
below).  The remaining hypotheses record facts of the Unicode category
tables (NUL is a control; neither the space codepoint nor any marker
codepoint is in group C). -/
theorem clean_text_for_db_idempotent (nfc : List Nat → List Nat)
    (isC : Nat → Bool) (x : List Nat)
    (h0 : isC 0 = true) (h32 : isC 32 = false)
    (hmk : ∀ c ∈ truncationMarker, isC c = false)
    (hnfc : nfc (clean_text_for_db nfc isC x 10000) =
      clean_text_for_db nfc isC x 10000)
    (hcase : (cleanCore nfc isC x).length ≤ 10000 ∨
      ∀ c, ((cleanCore nfc isC x).take 9986).getLast? = some c →
        isHWS c = false) :
    clean_text_for_db nfc isC (clean_text_for_db nfc isC x 10000) 10000 =
      clean_text_for_db nfc isC x 10000 := by
  have hprops := clean_core_char_props nfc isC x h0 h32
  by_cases hlen : (cleanCore nfc isC x).length ≤ 10000
  · have hx : clean_text_for_db nfc isC x 10000 = cleanCore nfc isC x := by
      simp only [clean_text_for_db]
      rw [if_neg]
      rintro ⟨-, h2⟩
      omega
    rw [hx] at hnfc ⊢
    refine clean_eq_of_core nfc isC _ 10000 ?_ ?_
    · exact cleanCore_eq_self nfc isC _ hprops.1 hprops.2 hnfc
        (noWsRun_cleanCore nfc isC x)
        (fun c hc => head?_cleanCore nfc isC x c hc)
        (fun c hc => getLast?_cleanCore nfc isC x c hc)
    · rintro ⟨-, h2⟩
      omega
  · have hgt : 10000 < (cleanCore nfc isC x).length := by omega
    have hBnd : ∀ c, ((cleanCore nfc isC x).take 9986).getLast? = some c →
        isHWS c = false := by
      rcases hcase with h | h
      · exact absurd h hlen
      · exact h
    have hAlen : ((cleanCore nfc isC x).take 9986).length = 9986 := by
      rw [List.length_take]
      omega
    have hx : clean_text_for_db nfc isC x 10000 =
        (cleanCore nfc isC x).take 9986 ++ truncationMarker := by
      simp only [clean_text_for_db]
      rw [if_pos ⟨by decide, hgt⟩, headSlice_budget]
    rw [hx] at hnfc ⊢
    have hAmem : ∀ c ∈ (cleanCore nfc isC x).take 9986,
        c ∈ cleanCore nfc isC x :=
      fun c hc => (List.take_sublist _ _).mem hc
    have hcore2 : cleanCore nfc isC
        ((cleanCore nfc isC x).take 9986 ++ truncationMarker) =
        (cleanCore nfc isC x).take 9986 ++ truncationMarker := by
      apply cleanCore_eq_self
      · intro c hc
        rcases List.mem_append.mp hc with h | h
        · exact hprops.1 c (hAmem c h)
        · exact (by decide : ∀ c ∈ truncationMarker, c ≠ 0) c h
      · intro c hc
        rcases List.mem_append.mp hc with h | h
        · exact hprops.2 c (hAmem c h)
        · simp [keepChar, hmk c h]
      · exact hnfc
      · refine List.chain'_append.mpr
          ⟨(noWsRun_cleanCore nfc isC x).take 9986,
            noWsRun_of_noRunB _ (by decide), ?_⟩
        intro a ha b _
        exact Or.inl (hBnd a ha)
      · intro c hc
        cases hA0 : ((cleanCore nfc isC x).take 9986).head? with
        | none =>
          have : ((cleanCore nfc isC x).take 9986).length = 0 := by
            rw [List.length_eq_zero]
            exact List.head?_eq_none_iff.mp hA0
          omega
        | some a0 =>
          rw [List.head?_append, hA0] at hc
          have hca : c = a0 := by simpa using hc.symm
          subst hca
          have := hA0
          rw [head?_take _ 9986 (by norm_num)] at this
          exact head?_cleanCore nfc isC x c this
      · intro c hc
        rw [List.getLast?_append] at hc
        have hm93 : truncationMarker.getLast? = some 93 := by decide
        rw [hm93] at hc
        have h2 : c = 93 := by simpa using hc.symm
        subst h2
        decide
    have hylen : ((cleanCore nfc isC x).take 9986 ++ truncationMarker).length =
        10002 := by
      rw [List.length_append, hAlen]
      decide
    simp only [clean_text_for_db, hcore2]
    rw [if_pos ⟨by decide, by rw [hylen]; decide⟩, headSlice_budget,
      List.take_append_eq_append_take, List.take_of_length_le (le_of_eq hAlen),
      hAlen]
    simp

/-- Witness for the amended C6 at a concrete ASCII input with a collapsible
double space and no truncation. -/
theorem clean_text_for_db_idempotent_witness :
    clean_text_for_db id asciiCatC
        (clean_text_for_db id asciiCatC [97, 32, 32, 98] 10000) 10000 =
      clean_text_for_db id asciiCatC [97, 32, 32, 98] 10000 :=
  clean_text_for_db_idempotent id asciiCatC [97, 32, 32, 98]
    (by decide) (by decide) (by decide) rfl (Or.inl (by decide))

/-- The second failure mode of idempotence, showing the NFC-invariance
proviso of the amended C6 is necessary even for short inputs: for the
input A, U+0001, combining grave, the first pass's NFC is the identity
(the control blocks composition) and the category-C filter then drops
U+0001, leaving A followed by combining grave — two codepoints, far
within the budget — which the second pass's NFC composes into the single
codepoint À, so sanitizing twice differs from sanitizing once. -/
theorem clean_text_for_db_not_idempotent_nfc :
    clean_text_for_db nfcAB asciiCatC
        (clean_text_for_db nfcAB asciiCatC [65, 1, 768] 10000) 10000 ≠
      clean_text_for_db nfcAB asciiCatC [65, 1, 768] 10000 := by
  decide

/-! ## Lemmas about the chunk streamer -/

theorem maybe_yield_low (c o : Nat) (carry : List α) (f : Nat)
    (h : carry.length < c) :
    maybe_yield_from_carry c o f carry = ([], carry) := by
  cases f with
  | zero => rfl
  | succ f => simp [maybe_yield_from_carry, Nat.not_le.mpr h]

theorem maybe_yield_once (c o : Nat) (carry : List α) (ho : o < c)
    (hlen : carry.length = c) :
    maybe_yield_from_carry c o carry.length carry =
      ([carry], carry.drop (c - o)) := by
  obtain ⟨k, rfl⟩ : ∃ k, c = k + 1 := ⟨c - 1, by omega⟩
  rw [hlen]
  simp only [maybe_yield_from_carry]
  rw [if_pos (by omega : k + 1 ≤ carry.length)]
  rw [maybe_yield_low (k + 1) o _ k (by rw [List.length_drop]; omega)]
  rw [List.take_of_length_le (by omega)]

theorem chunksSpecGo_nil (c o f : Nat) :
    chunksSpecGo c o f ([] : List α) = [] := by
  cases f <;> rfl

theorem chunksSpecGo_succ_big (c o f : Nat) (l : List α) (hne : l ≠ [])
    (hc : c ≤ l.length) :
    chunksSpecGo c o (f + 1) l =
      l.take c :: chunksSpecGo c o f (l.drop (c - o)) := by
  simp only [chunksSpecGo]
  rw [if_neg (by simpa [List.isEmpty_iff] using hne), if_pos hc]

theorem chunksSpecGo_small (c o f : Nat) (l : List α) (hne : l ≠ [])
    (hc : ¬c ≤ l.length) :
    chunksSpecGo c o f l = [l] := by
  cases f with
  | zero =>
    simp only [chunksSpecGo]
    rw [if_neg (by simpa [List.isEmpty_iff] using hne)]
  | succ f =>
    simp only [chunksSpecGo]
    rw [if_neg (by simpa [List.isEmpty_iff] using hne), if_neg hc]

theorem chunksSpecGo_ne_nil (c o f : Nat) (l : List α) (hne : l ≠ []) :
    chunksSpecGo c o f l ≠ [] := by
  by_cases hc : c ≤ l.length
  · cases f with
    | zero =>
      simp only [chunksSpecGo]
      rw [if_neg (by simpa [List.isEmpty_iff] using hne)]
      simp
    | succ f =>
      rw [chunksSpecGo_succ_big c o f l hne hc]
      simp
  · rw [chunksSpecGo_small c o f l hne hc]
    simp

theorem chunksSpecGo_fuel (c o : Nat) (ho : o < c) (l : List α) (f g : Nat)
    (hf : l.length ≤ f) (hg : l.length ≤ g) :
    chunksSpecGo c o f l = chunksSpecGo c o g l := by
  induction f generalizing g l with
  | zero =>
    have hl : l = [] := List.length_eq_zero.mp (by omega)
    subst hl
    rw [chunksSpecGo_nil, chunksSpecGo_nil]
  | succ f ih =>
    by_cases hemp : l = []
    · subst hemp
      rw [chunksSpecGo_nil, chunksSpecGo_nil]
    · by_cases hc : c ≤ l.length
      · obtain ⟨g', rfl⟩ : ∃ g', g = g' + 1 := by
          refine ⟨g - 1, ?_⟩
          have : l.length ≠ 0 := fun h => hemp (List.length_eq_zero.mp h)
          omega
        rw [chunksSpecGo_succ_big c o f l hemp hc,
          chunksSpecGo_succ_big c o g' l hemp hc]
        congr 1
        apply ih
        · rw [List.length_drop]
          omega
        · rw [List.length_drop]
          omega
      · rw [chunksSpecGo_small c o (f + 1) l hemp hc,
          chunksSpecGo_small c o g l hemp hc]

theorem chunkFeed_eq_chunksSpecGo (c o : Nat) (ho : o < c) (ws : List α) :
    ∀ carry : List α, carry.length < c →
      chunkFeed c o ws carry =
        chunksSpecGo c o (carry ++ ws).length (carry ++ ws) := by
  induction ws with
  | nil =>
    intro carry hlt
    by_cases hemp : carry = []
    · subst hemp
      rw [show ([] : List α) ++ [] = [] from rfl, chunksSpecGo_nil]
      rfl
    · rw [List.append_nil]
      rw [chunksSpecGo_small c o carry.length carry hemp (by omega)]
      simp [chunkFeed, List.isEmpty_iff, hemp]
  | cons w ws ih =>
    intro carry hlt
    have hassoc : carry ++ w :: ws = (carry ++ [w]) ++ ws := by
      rw [List.append_assoc]
      rfl
    by_cases htrig : c ≤ (carry ++ [w]).length
    · have hlen1 : (carry ++ [w]).length = c := by
        simp only [List.length_append, List.length_cons, List.length_nil] at htrig ⊢
        omega
      simp only [chunkFeed]
      rw [if_pos htrig, maybe_yield_once c o (carry ++ [w]) ho hlen1]
      have hdlen : ((carry ++ [w]).drop (c - o)).length = o := by
        rw [List.length_drop, hlen1]
        omega
      rw [ih ((carry ++ [w]).drop (c - o)) (by omega)]
      rw [hassoc]
      obtain ⟨F, hF⟩ : ∃ F, ((carry ++ [w]) ++ ws).length = F + 1 := by
        refine ⟨((carry ++ [w]) ++ ws).length - 1, ?_⟩
        rw [List.length_append, hlen1]
        omega
      rw [hF, chunksSpecGo_succ_big c o F _
        (by
          intro hnil
          have := congrArg List.length hnil
          rw [List.length_append, hlen1] at this
          simp at this
          omega)
        (by rw [List.length_append, hlen1]; omega)]
      rw [List.take_left' hlen1]
      have hdrop : ((carry ++ [w]) ++ ws).drop (c - o) =
          (carry ++ [w]).drop (c - o) ++ ws := by
        rw [List.drop_append_eq_append_drop,
          show c - o - (carry ++ [w]).length = 0 from by rw [hlen1]; omega,
          List.drop_zero]
      rw [hdrop]
      simp only [List.singleton_append]
      congr 1
      apply chunksSpecGo_fuel c o ho
      · rw [List.length_append, hdlen]
      · rw [List.length_append, hdlen]
        have hlenF : F = c + ws.length - 1 := by
          have := hF
          rw [List.length_append, hlen1] at this
          omega
        omega
    · simp only [chunkFeed]
      rw [if_neg htrig]
      rw [ih (carry ++ [w]) (by
        simp only [List.length_append, List.length_cons, List.length_nil] at htrig ⊢
        omega)]
      rw [hassoc]

theorem chunkFeed_eq_chunksSpec (c o : Nat) (ho : o < c) (words : List α) :
    chunkFeed c o words [] = chunksSpec c o words := by
  have h := chunkFeed_eq_chunksSpecGo c o ho words [] (by simpa using by omega)
  simpa [chunksSpec] using h

theorem chunkCount_step (c o n : Nat) (ho : o < c) (hc : c ≤ n) :
    chunkCount c o n = chunkCount c o (n - (c - o)) + 1 := by
  have hstep : 0 < c - o := by omega
  by_cases h0 : n - (c - o) = 0
  · have ho0 : o = 0 := by omega
    have hnc : n = c := by omega
    subst ho0
    rw [chunkCount, chunkCount, h0]
    rw [if_neg (by omega), if_neg (by omega), if_pos rfl]
    have hnc0 : n - c = 0 := by omega
    rw [hnc0]
    simp
  · by_cases h1 : n - (c - o) < c
    · rw [chunkCount, chunkCount]
      rw [if_neg (by omega), if_neg (by omega), if_neg h0, if_pos h1]
      have hlt : n - c < c - o := by omega
      rw [Nat.div_eq_of_lt hlt, Nat.mod_eq_of_lt hlt]
      rw [if_neg (by omega : ¬(n - c + o = 0))]
    · rw [chunkCount, chunkCount]
      rw [if_neg (by omega), if_neg (by omega), if_neg h0,
        if_neg (by omega : ¬(n - (c - o) < c))]
      have hrw : n - c = (n - (c - o) - c) + (c - o) := by omega
      rw [hrw, Nat.add_div_right _ hstep, Nat.add_mod_right]
      ring

theorem length_chunksSpecGo (c o : Nat) (ho : o < c) (f : Nat) (l : List α)
    (hf : l.length ≤ f) :
    (chunksSpecGo c o f l).length = chunkCount c o l.length := by
  induction f generalizing l with
  | zero =>
    have hl : l = [] := List.length_eq_zero.mp (by omega)
    subst hl
    rw [chunksSpecGo_nil]
    rfl
  | succ f ih =>
    by_cases hemp : l = []
    · subst hemp
      rw [chunksSpecGo_nil]
      rfl
    · have hnz : l.length ≠ 0 := fun h => hemp (List.length_eq_zero.mp h)
      by_cases hc : c ≤ l.length
      · rw [chunksSpecGo_succ_big c o f l hemp hc, List.length_cons,
          ih (l.drop (c - o)) (by rw [List.length_drop]; omega),
          List.length_drop]
        exact (chunkCount_step c o l.length ho hc).symm
      · rw [chunksSpecGo_small c o (f + 1) l hemp hc]
        rw [chunkCount, if_neg hnz, if_pos (by omega)]
        rfl

theorem getLastD_ne_nil (R : List β) (hne : R ≠ []) (d d' : β) :
    R.getLastD d = R.getLastD d' := by
  cases R with
  | nil => exact absurd rfl hne
  | cons r R' => rw [List.getLastD_cons, List.getLastD_cons]

theorem reconstruct_chunksSpecGo (c o : Nat) (ho : o < c) (f : Nat)
    (l : List α) (hf : l.length ≤ f) :
    ((chunksSpecGo c o f l).dropLast.map fun ch => ch.take (c - o)).flatten ++
      (chunksSpecGo c o f l).getLastD [] = l := by
  induction f generalizing l with
  | zero =>
    have hl : l = [] := List.length_eq_zero.mp (by omega)
    subst hl
    rw [chunksSpecGo_nil]
    rfl
  | succ f ih =>
    by_cases hemp : l = []
    · subst hemp
      rw [chunksSpecGo_nil]
      rfl
    · by_cases hc : c ≤ l.length
      · rw [chunksSpecGo_succ_big c o f l hemp hc]
        by_cases hR : l.drop (c - o) = []
        · rw [hR, chunksSpecGo_nil]
          have hlen : l.length ≤ c - o := by
            have := List.drop_eq_nil_iff.mp hR
            omega
          simp only [List.dropLast_single, List.map_nil, List.flatten_nil,
            List.nil_append, List.getLastD_cons, List.getLastD_nil]
          exact List.take_of_length_le (by omega)
        · have hRne := chunksSpecGo_ne_nil c o f (l.drop (c - o)) hR
          rw [List.dropLast_cons_of_ne_nil hRne, List.getLastD_cons,
            getLastD_ne_nil _ hRne (l.take c) [], List.map_cons,
            List.flatten_cons, List.append_assoc,
            ih (l.drop (c - o)) (by rw [List.length_drop]; omega),
            List.take_take, Nat.min_eq_left (by omega)]
          exact List.take_append_drop (c - o) l
      · rw [chunksSpecGo_small c o (f + 1) l hemp hc]
        simp

/-- C1 (amended): for every word sequence and every configuration with
overlap < chunk_size, the streamer emits exactly chunkCount c o n chunks
(one full chunk per window slide plus a final flushed chunk whenever the
carry is nonempty after the document ends — this equals the spec's formula
ceil(max(n-o,0)/(c-o)) except when 0 < n <= o, where one chunk is emitted,
and when n >= c, o > 0 and (c-o) divides (n-o), where one extra final chunk
holding only carried overlap words is emitted), and concatenating the first
c-o words of every chunk except the last followed by all words of the last
chunk reconstructs the word sequence exactly. -/
theorem chunk_generator_count_and_reconstruction (c o : Nat) (ho : o < c)
    (words : List α) (chunks : List (List α))
    (hg : chunk_generator_from_file true pdfExt words c o = .ok chunks) :
    chunks.length = chunkCount c o words.length ∧
      (chunks.dropLast.map fun ch => ch.take (c - o)).flatten ++
        chunks.getLastD [] = words := by
  have hchunks : chunks = chunkFeed c o words [] := by
    simpa [chunk_generator_from_file] using hg.symm
  subst hchunks
  rw [chunkFeed_eq_chunksSpec c o ho words]
  exact ⟨length_chunksSpecGo c o ho words.length words le_rfl,
    reconstruct_chunksSpecGo c o ho words.length words le_rfl⟩

/-- Witness for C1 at chunk_size 2, overlap 1 on a two-word document. -/
theorem chunk_generator_count_and_reconstruction_witness :
    ([[0, 1], [1]] : List (List Nat)).length = chunkCount 2 1 2 ∧
      (([[0, 1], [1]] : List (List Nat)).dropLast.map
          fun ch => ch.take (2 - 1)).flatten ++
        ([[0, 1], [1]] : List (List Nat)).getLastD [] = [0, 1] :=
  chunk_generator_count_and_reconstruction 2 1 (by decide) [0, 1] [[0, 1], [1]]
    rfl

/-- C1 counterexample: the spec's chunk-count formula
ceil(max(n-o,0)/(c-o)) is wrong on the code.  With chunk_size 2, overlap 1
and a two-word document the streamer emits 2 chunks (the full chunk and a
flushed chunk holding the carried overlap word), while the formula gives
ceil((2-1)/1) = 1. -/
theorem chunk_generator_count_formula_false :
    chunk_generator_from_file true pdfExt [0, 1] 2 1 =
        .ok ([[0, 1], [1]] : List (List Nat)) ∧
      ([[0, 1], [1]] : List (List Nat)).length = 2 ∧
      specChunkCount 2 1 2 = 1 := by
  refine ⟨rfl, by decide, by decide⟩

/-! ## Embedding batcher -/

theorem attemptOutcome_length (provider : Nat → Option (List (List ℚ)))
    (nTexts attempt : Nat) (vs : List (List ℚ))
    (h : attemptOutcome provider nTexts attempt = some vs) :
    vs.length = nTexts := by
  cases hp : provider attempt with
  | none => simp [attemptOutcome, hp] at h
  | some vs' =>
    simp only [attemptOutcome, hp] at h
    by_cases hl : vs'.length = nTexts
    · rw [if_pos hl] at h
      cases h
      exact hl
    · rw [if_neg hl] at h
      cases h

theorem generate_embedding_go_spec (provider : Nat → Option (List (List ℚ)))
    (nTexts maxRetries : Nat) :
    ∀ fuel attempt, attempt + fuel = maxRetries → 1 ≤ fuel →
      (∃ vs, generate_embedding_go provider nTexts maxRetries attempt fuel =
          .ok vs ∧ vs.length = nTexts) ∨
        generate_embedding_go provider nTexts maxRetries attempt fuel =
          .error maxRetries := by
  intro fuel
  induction fuel with
  | zero =>
    intro attempt _ h1
    omega
  | succ fuel ih =>
    intro attempt hsum _
    simp only [generate_embedding_go]
    cases hA : attemptOutcome provider nTexts (attempt + 1) with
    | some vs =>
      exact Or.inl ⟨vs, rfl,
        attemptOutcome_length provider nTexts (attempt + 1) vs hA⟩
    | none =>
      by_cases hmax : maxRetries ≤ attempt + 1
      · rw [if_pos hmax]
        right
        have heq : attempt + 1 = maxRetries := by omega
        rw [heq]
      · rw [if_neg hmax]
        exact ih (attempt + 1) (by omega) (by omega)

/-- C3: generate_embedding_batch either returns one vector per input text or
fails after exactly the configured number of attempts (the source default is
EMBEDDING_MAX_RETRIES = 5); a response with mismatching vector count raises
inside the try and is retried by the same except-branch as any other
failure, so it consumes the same budget.  The error value records how many
attempts were made. -/
theorem generate_embedding_batch_spec (provider : Nat → Option (List (List ℚ)))
    (texts : List (List Nat)) (maxRetries : Nat) (h : 1 ≤ maxRetries) :
    (∃ vs, generate_embedding_batch provider texts maxRetries = .ok vs ∧
        vs.length = texts.length) ∨
      generate_embedding_batch provider texts maxRetries =
        .error maxRetries :=
  generate_embedding_go_spec provider texts.length maxRetries maxRetries 0
    (by omega) h

/-- Witness for C3: an always-failing provider exhausts exactly the default
five attempts on a singleton batch. -/
theorem generate_embedding_batch_spec_witness :
    1 ≤ EMBEDDING_MAX_RETRIES ∧
      ((∃ vs, generate_embedding_batch (fun _ => none) [[104, 105]]
            EMBEDDING_MAX_RETRIES = .ok vs ∧
            vs.length = [[104, 105]].length) ∨
        generate_embedding_batch (fun _ => none) [[104, 105]]
            EMBEDDING_MAX_RETRIES = .error EMBEDDING_MAX_RETRIES) :=
  ⟨by decide, generate_embedding_batch_spec (fun _ => none) [[104, 105]]
    EMBEDDING_MAX_RETRIES (by decide)⟩

/-! ## Similarity search -/

/-- C4: the query path returns at most top_k results in non-decreasing
distance order; an empty store yields the empty list, and a failure of the
embedding call or of the store yields the empty list instead of an
exception (the body is wrapped in a try/except returning []). -/
theorem query_similar_embeddings_spec :
    ∀ (e : Except Unit (List ℚ)) (s : Except Unit (List StoredRow)) (k : Nat),
      (query_similar_embeddings e s k).length ≤ k ∧
      List.Pairwise (fun a b : SearchResult => a.distance ≤ b.distance)
        (query_similar_embeddings e s k) ∧
      query_similar_embeddings e (.ok []) k = [] ∧
      (∀ u : Unit, query_similar_embeddings (.error u) s k = []) ∧
      (∀ u : Unit, query_similar_embeddings e (.error u) k = []) := by
  intro e s k
  have htrans : ∀ a b c : SearchResult, distLE a b = true → distLE b c = true →
      distLE a c = true := by
    intro a b c hab hbc
    simp only [distLE, decide_eq_true_eq] at hab hbc ⊢
    exact le_trans hab hbc
  have htotal : ∀ a b : SearchResult, (distLE a b || distLE b a) = true := by
    intro a b
    simp only [distLE, Bool.or_eq_true_iff, decide_eq_true_eq]
    exact le_total a.distance b.distance
  refine ⟨?_, ?_, ?_, fun u => rfl, fun u => by cases e <;> rfl⟩
  · cases e with
    | error u => simp [query_similar_embeddings]
    | ok qv =>
      cases s with
      | error u => simp [query_similar_embeddings]
      | ok rows =>
        simp only [query_similar_embeddings]
        rw [List.length_take]
        omega
  · cases e with
    | error u => simp [query_similar_embeddings]
    | ok qv =>
      cases s with
      | error u => simp [query_similar_embeddings]
      | ok rows =>
        simp only [query_similar_embeddings]
        have hs := List.sorted_mergeSort htrans htotal
          (rows.map fun r => SearchResult.mk r (dist2 r.embedding qv))
        have hs2 : List.Pairwise
            (fun a b : SearchResult => a.distance ≤ b.distance)
            ((rows.map fun r =>
              SearchResult.mk r (dist2 r.embedding qv)).mergeSort distLE) := by
          refine hs.imp ?_
          intro a b hab
          simpa [distLE, decide_eq_true_eq] using hab
        exact hs2.sublist (List.take_sublist _ _)
  · cases e with
    | error u => rfl
    | ok qv => simp [query_similar_embeddings]

/-! ## Store batch insert -/

theorem pagesGo_nil (p f : Nat) : pagesGo p f ([] : List α) = [] := by
  cases f <;> rfl

theorem pages_small (p : Nat) (rows : List α) (hne : rows ≠ [])
    (hlen : rows.length ≤ p) : pages p rows = [rows] := by
  unfold pages
  obtain ⟨m, hm⟩ : ∃ m, rows.length = m + 1 := by
    refine ⟨rows.length - 1, ?_⟩
    have : rows.length ≠ 0 := fun h => hne (List.length_eq_zero.mp h)
    omega
  rw [hm]
  cases rows with
  | nil => exact absurd rfl hne
  | cons r rest =>
    simp only [pagesGo]
    rw [List.take_of_length_le (by omega),
      show List.drop p (r :: rest) = [] from List.drop_eq_nil_iff.mpr (by omega),
      pagesGo_nil]

/-- C8 (amended): for a nonempty batch of at most DB_INSERT_BATCH_SIZE = 64
rows, store_metadata_and_embedding_batch issues exactly one multi-row
INSERT statement and returns exactly one store-assigned id per input row,
in insertion order.  (Larger batches are paged by execute_values and only
the last page's RETURNING rows are fetched — see the counterexample.) -/
theorem store_metadata_and_embedding_batch_single (rows : List α)
    (nextId : Nat) (hne : rows ≠ []) (hlen : rows.length ≤ DB_INSERT_BATCH_SIZE) :
    store_metadata_and_embedding_batch rows nextId =
      (1, List.range' nextId rows.length, nextId + rows.length) := by
  unfold store_metadata_and_embedding_batch
  rw [if_neg (by simpa [List.isEmpty_iff] using hne),
    pages_small DB_INSERT_BATCH_SIZE rows hne hlen]
  have harith : nextId + rows.length - rows.length = nextId := by omega
  simp only [List.length_cons, List.length_nil, List.getLastD_cons,
    List.getLastD_nil, harith]

/-- Witness for the amended C8 on a three-row batch starting at id 5. -/
theorem store_metadata_and_embedding_batch_single_witness :
    store_metadata_and_embedding_batch [(), (), ()] 5 = (1, [5, 6, 7], 8) := by
  rw [store_metadata_and_embedding_batch_single [(), (), ()] 5 (by decide)
    (by decide)]
  rfl

/-- C8 counterexample: on a 65-row batch the function issues two INSERT
statements (execute_values pages at 64 rows) and, because fetchall reads
only the last statement's RETURNING rows, returns a single id instead of
65. -/
theorem store_metadata_and_embedding_batch_not_single :
    (store_metadata_and_embedding_batch (List.replicate 65 ()) 0).1 = 2 ∧
      (store_metadata_and_embedding_batch (List.replicate 65 ()) 0).2.1.length =
        1 := by
  decide

/-! ## Table bootstrap -/

/-- C9 counterexample: when the store forbids CREATE EXTENSION and the
extension is not already present, ensure_table_exists returns normally
with no error and no state change: the inner except-branch prints "may
already exist or not allowed" (not distinguishing the two situations) and
continues, the aborted transaction then makes CREATE TABLE fail into the
outer except, and nothing commits — so the permission failure is silently
swallowed rather than surfaced to the caller as a fatal configuration
error, contradicting the claim. -/
theorem ensure_table_exists_swallows :
    ensure_table_exists ⟨true, false, true⟩ ⟨false, false⟩ =
      (⟨false, false⟩, .ok ()) := rfl

/-- C9 (amended): ensure_table_exists is safe to call repeatedly (a second
call from the state the first call produced changes nothing), and it never
surfaces any error to the caller: every failure, including a permission
failure to enable the vector extension, is caught, logged and swallowed —
and because the failed statement aborts the transaction, nothing is
committed on any failing path. -/
theorem ensure_table_exists_total_and_idempotent :
    ∀ (env : DbEnv) (st : DbState),
      (ensure_table_exists env st).2 = .ok () ∧
      ensure_table_exists env (ensure_table_exists env st).1 =
        ((ensure_table_exists env st).1, .ok ()) := by
  intro env st
  obtain ⟨co, ea, t3⟩ := env
  obtain ⟨ee, te⟩ := st
  cases co <;> cases ea <;> cases t3 <;> cases ee <;> cases te <;>
    exact ⟨rfl, rfl⟩

/-! ## Ingestion boundary -/

/-- C10 counterexample: for the unsupported extension txt, ingest_file has
already performed the bucket-ensure and table-ensure operations (both
involve store and bucket I/O) before its extension check raises the
validation error, contradicting the claim that rejection happens before
any I/O. -/
theorem ingest_file_boundary_io_before_rejection :
    ingest_file_boundary [116, 120, 116] =
      ([IngestOp.bucketEnsure, IngestOp.tableEnsure],
        .error IngestError.unsupportedExtension) ∧
      IngestOp.bucketEnsure ∈ (ingest_file_boundary [116, 120, 116]).1 :=
  ⟨rfl, by decide⟩

/-- C10 (amended): every extension other than pdf and docx is rejected with
a ValueError; ingest_file performs exactly its two infrastructure calls
(bucket ensure, table ensure) before the check, and no embedding-provider
call or row insert ever happens; chunk_generator_from_file rejects the
extension before opening the document. -/
theorem unsupported_extension_rejected (ext : List Nat)
    (h : ¬(ext = pdfExt ∨ ext = docxExt)) :
    (ingest_file_boundary ext).1 =
        [IngestOp.bucketEnsure, IngestOp.tableEnsure] ∧
      (ingest_file_boundary ext).2 = .error IngestError.unsupportedExtension ∧
      ∀ (words : List (List Nat)) (c o : Nat),
        chunk_generator_from_file true ext words c o =
          .error IngestError.unsupportedExtension := by
  have h1 : ext ≠ pdfExt := fun hh => h (Or.inl hh)
  have h2 : ext ≠ docxExt := fun hh => h (Or.inr hh)
  have hbeq : (ext == pdfExt || ext == docxExt) = false := by
    simp [h1, h2]
  refine ⟨rfl, ?_, ?_⟩
  · simp only [ingest_file_boundary]
    rw [hbeq]
    rfl
  · intro words c o
    simp only [chunk_generator_from_file]
    rw [hbeq]
    rfl

/-- Witness for the amended C10 at the extension txt. -/
theorem unsupported_extension_rejected_witness :
    (ingest_file_boundary [116, 120, 116]).1 =
        [IngestOp.bucketEnsure, IngestOp.tableEnsure] ∧
      (ingest_file_boundary [116, 120, 116]).2 =
        .error IngestError.unsupportedExtension ∧
      ∀ (words : List (List Nat)) (c o : Nat),
        chunk_generator_from_file true [116, 120, 116] words c o =
          .error IngestError.unsupportedExtension :=
  unsupported_extension_rejected [116, 120, 116] (by decide)

/-! ## The 1200-word ingestion scenario -/

theorem replicate_ne_nil (n : Nat) (a : α) (hn : n ≠ 0) :
    List.replicate n a ≠ [] := by
  intro h
  have h2 := congrArg List.length h
  rw [List.length_replicate, List.length_nil] at h2
  exact hn h2

theorem chunksSpecGo_replicate_step (c o m f : Nat) (w : α) (hc : c ≤ m)
    (hc0 : c ≠ 0) :
    chunksSpecGo c o (f + 1) (List.replicate m w) =
      List.replicate c w ::
        chunksSpecGo c o f (List.replicate (m - (c - o)) w) := by
  rw [chunksSpecGo_succ_big c o f _ (replicate_ne_nil m w (by omega))
    (by rw [List.length_replicate]; exact hc)]
  rw [List.take_replicate, List.drop_replicate, Nat.min_eq_left hc]

theorem chunksSpecGo_replicate_last (c o m f : Nat) (w : α) (hm : m ≠ 0)
    (hc : ¬c ≤ m) :
    chunksSpecGo c o f (List.replicate m w) = [List.replicate m w] :=
  chunksSpecGo_small c o f _ (replicate_ne_nil m w hm)
    (by rw [List.length_replicate]; exact hc)

set_option maxRecDepth 4000 in
theorem chunks_1200 :
    chunkFeed 500 50 (List.replicate 1200 ([119] : List Nat)) [] =
      [List.replicate 500 [119], List.replicate 500 [119],
        List.replicate 300 [119]] := by
  rw [chunkFeed_eq_chunksSpec 500 50 (by norm_num)]
  unfold chunksSpec
  rw [List.length_replicate]
  rw [show (1200 : Nat) = 1199 + 1 from by norm_num,
    chunksSpecGo_replicate_step 500 50 1200 1199 _ (by norm_num) (by norm_num)]
  rw [show (1200 - (500 - 50) : Nat) = 750 from by norm_num]
  rw [show (1199 : Nat) = 1198 + 1 from by norm_num,
    chunksSpecGo_replicate_step 500 50 750 1198 _ (by norm_num) (by norm_num)]
  rw [show (750 - (500 - 50) : Nat) = 300 from by norm_num]
  rw [chunksSpecGo_replicate_last 500 50 300 1198 _ (by norm_num) (by norm_num)]

theorem joinWords_cons2 (w1 w2 : List Nat) (ws : List (List Nat)) :
    joinWords (w1 :: w2 :: ws) = w1 ++ 32 :: joinWords (w2 :: ws) := rfl

theorem joinW_props (m : Nat) :
    (∀ c ∈ joinWords (List.replicate (m + 1) ([119] : List Nat)),
        c = 119 ∨ c = 32) ∧
      (joinWords (List.replicate (m + 1) ([119] : List Nat))).head? =
        some 119 ∧
      (joinWords (List.replicate (m + 1) ([119] : List Nat))).getLast? =
        some 119 ∧
      NoWsRun (joinWords (List.replicate (m + 1) ([119] : List Nat))) ∧
      (joinWords (List.replicate (m + 1) ([119] : List Nat))).length =
        2 * m + 1 := by
  induction m with
  | zero =>
    refine ⟨?_, rfl, rfl, List.chain'_singleton 119, rfl⟩
    intro c hc
    exact Or.inl (List.mem_singleton.mp hc)
  | succ m ih =>
    obtain ⟨ihmem, ihhead, ihlast, ihrun, ihlen⟩ := ih
    have hJ : joinWords (List.replicate (m + 2) ([119] : List Nat)) =
        119 :: 32 :: joinWords (List.replicate (m + 1) [119]) := by
      rw [show List.replicate (m + 2) ([119] : List Nat) =
        [119] :: [119] :: List.replicate m [119] from rfl]
      rw [joinWords_cons2]
      rfl
    obtain ⟨t, ht⟩ : ∃ t,
        joinWords (List.replicate (m + 1) ([119] : List Nat)) = 119 :: t := by
      cases hJ1 : joinWords (List.replicate (m + 1) ([119] : List Nat)) with
      | nil =>
        rw [hJ1] at ihhead
        cases ihhead
      | cons a t =>
        rw [hJ1] at ihhead
        have ha : a = 119 := by simpa using ihhead
        exact ⟨t, by rw [ha]⟩
    refine ⟨?_, ?_, ?_, ?_, ?_⟩
    · intro c hc
      rw [hJ] at hc
      rcases List.mem_cons.mp hc with h | h
      · exact Or.inl h
      · rcases List.mem_cons.mp h with h | h
        · exact Or.inr h
        · exact ihmem c h
    · rw [hJ]
      rfl
    · rw [hJ, ht, List.getLast?_cons_cons, List.getLast?_cons_cons, ← ht,
        ihlast]
    · rw [hJ, ht]
      refine List.chain'_cons.mpr ⟨Or.inl (by decide), ?_⟩
      refine List.chain'_cons.mpr ⟨Or.inr (by decide), ?_⟩
      rw [← ht]
      exact ihrun
    · rw [hJ, List.length_cons, List.length_cons, ihlen]
      ring

theorem isHWS_eq_false (c : Nat)
    (h : c ≠ 32 ∧ c ≠ 9 ∧ c ≠ 12 ∧ c ≠ 11) : isHWS c = false := by
  rw [Bool.eq_false_iff]
  intro hT
  simp [isHWS] at hT
  omega

theorem pyIsSpace_false_of_mid (c : Nat) (h1 : 33 ≤ c) (h2 : c ≤ 126) :
    pyIsSpace c = false := by
  rw [Bool.eq_false_iff]
  intro hT
  simp [pyIsSpace] at hT
  omega

theorem clean_eq_self_of_nice (l : List Nat)
    (hascii : ∀ c ∈ l, 32 ≤ c ∧ c ≤ 126)
    (hrun : NoWsRun l)
    (hh : ∀ c, l.head? = some c → c ≠ 32)
    (hl : ∀ c, l.getLast? = some c → c ≠ 32)
    (hlen : l.length ≤ 10000) :
    clean_text_for_db id asciiCatC l 10000 = l := by
  apply clean_eq_of_core
  · apply cleanCore_eq_self
    · intro c hc
      have := hascii c hc
      omega
    · intro c hc
      have hb := hascii c hc
      have hcat : asciiCatC c = false := by
        rw [Bool.eq_false_iff]
        intro hT
        simp [asciiCatC] at hT
        omega
      simp [keepChar, hcat]
    · rfl
    · exact hrun
    · intro c hc
      have hb := hascii c (List.mem_of_mem_head? hc)
      have hne := hh c hc
      exact pyIsSpace_false_of_mid c (by omega) (by omega)
    · intro c hc
      have hmem : c ∈ l := by
        rw [List.getLast?_eq_head?_reverse] at hc
        exact List.mem_reverse.mp (List.mem_of_mem_head? hc)
      have hb := hascii c hmem
      have hne := hl c hc
      exact pyIsSpace_false_of_mid c (by omega) (by omega)
  · rintro ⟨-, h⟩
    omega

theorem pyStrip_joinW (m : Nat) :
    pyStrip (joinWords (List.replicate (m + 1) ([119] : List Nat))) =
      joinWords (List.replicate (m + 1) [119]) := by
  obtain ⟨-, hhead, hlast, -, -⟩ := joinW_props m
  apply pyStrip_eq_self
  · intro c hc
    rw [hhead] at hc
    have h2 : c = 119 := by simpa using hc.symm
    subst h2
    decide
  · intro c hc
    rw [hlast] at hc
    have h2 : c = 119 := by simpa using hc.symm
    subst h2
    decide

theorem clean_label_eq (d m : Nat) (hd1 : 48 ≤ d) (hd2 : d ≤ 57)
    (hm : 2 * m + 11 ≤ 10000) :
    clean_text_for_db id asciiCatC
      (91 :: 99 :: 104 :: 117 :: 110 :: 107 :: 32 :: d :: 93 :: 32 ::
        joinWords (List.replicate (m + 1) [119])) 10000 =
      91 :: 99 :: 104 :: 117 :: 110 :: 107 :: 32 :: d :: 93 :: 32 ::
        joinWords (List.replicate (m + 1) [119]) := by
  obtain ⟨hmem, hhead, hlast, hrun, hlen⟩ := joinW_props m
  obtain ⟨t, ht⟩ : ∃ t,
      joinWords (List.replicate (m + 1) ([119] : List Nat)) = 119 :: t := by
    cases hJ1 : joinWords (List.replicate (m + 1) ([119] : List Nat)) with
    | nil =>
      rw [hJ1] at hhead
      cases hhead
    | cons a t =>
      rw [hJ1] at hhead
      have ha : a = 119 := by simpa using hhead
      exact ⟨t, by rw [ha]⟩
  apply clean_eq_self_of_nice
  · intro c hc
    simp only [List.mem_cons] at hc
    rcases hc with rfl | rfl | rfl | rfl | rfl | rfl | rfl | rfl | rfl | rfl | h
    · omega
    · omega
    · omega
    · omega
    · omega
    · omega
    · omega
    · omega
    · omega
    · omega
    · rcases hmem c h with rfl | rfl
      · omega
      · omega
  · rw [ht]
    refine List.chain'_cons.mpr ⟨Or.inl (by decide), ?_⟩
    refine List.chain'_cons.mpr ⟨Or.inl (by decide), ?_⟩
    refine List.chain'_cons.mpr ⟨Or.inl (by decide), ?_⟩
    refine List.chain'_cons.mpr ⟨Or.inl (by decide), ?_⟩
    refine List.chain'_cons.mpr ⟨Or.inl (by decide), ?_⟩
    refine List.chain'_cons.mpr ⟨Or.inl (by decide), ?_⟩
    refine List.chain'_cons.mpr ⟨Or.inr (isHWS_eq_false d (by omega)), ?_⟩
    refine List.chain'_cons.mpr ⟨Or.inr (by decide), ?_⟩
    refine List.chain'_cons.mpr ⟨Or.inl (by decide), ?_⟩
    refine List.chain'_cons.mpr ⟨Or.inr (by decide), ?_⟩
    rw [← ht]
    exact hrun
  · intro c hc
    have h2 : c = 91 := by simpa using hc.symm
    omega
  · intro c hc
    rw [ht] at hc
    simp only [List.getLast?_cons_cons] at hc
    rw [← ht, hlast] at hc
    have h2 : c = 119 := by simpa using hc.symm
    omega
  · simp only [List.length_cons, hlen]
    omega

theorem ingest_texts_1200 :
    ingest_file_chunk_texts id asciiCatC 500 50 (List.replicate 1200 [119]) =
      [chunkLabel 1 (List.replicate 500 [119]),
        chunkLabel 2 (List.replicate 500 [119]),
        chunkLabel 3 (List.replicate 300 [119])] := by
  have hlabel : ∀ (k m : Nat), natDigits k = [k + 48] → 48 ≤ k + 48 →
      k + 48 ≤ 57 → 2 * m + 11 ≤ 10000 →
      clean_text_for_db id asciiCatC
          (chunkLabel k (List.replicate (m + 1) [119])) 10000 =
        chunkLabel k (List.replicate (m + 1) [119]) := by
    intro k m hk h1 h2 hm
    have hform : chunkLabel k (List.replicate (m + 1) [119]) =
        91 :: 99 :: 104 :: 117 :: 110 :: 107 :: 32 :: (k + 48) :: 93 :: 32 ::
          joinWords (List.replicate (m + 1) [119]) := by
      unfold chunkLabel
      rw [hk, pyStrip_joinW]
      rfl
    rw [hform]
    exact clean_label_eq (k + 48) m h1 h2 hm
  unfold ingest_file_chunk_texts
  rw [chunks_1200]
  rw [show List.range
      ([List.replicate 500 ([119] : List Nat), List.replicate 500 [119],
        List.replicate 300 [119]]).length = [0, 1, 2] from rfl]
  simp only [List.zipWith_cons_cons, List.zipWith_nil_left]
  rw [show (Nat.zero + 1 : Nat) = 1 from rfl]
  rw [show List.replicate 500 ([119] : List Nat) =
    List.replicate (499 + 1) [119] from rfl]
  rw [show List.replicate 300 ([119] : List Nat) =
    List.replicate (299 + 1) [119] from rfl]
  rw [hlabel 1 499 rfl (by norm_num) (by norm_num) (by norm_num),
    hlabel 2 499 rfl (by norm_num) (by norm_num) (by norm_num),
    hlabel 3 299 rfl (by norm_num) (by norm_num) (by norm_num)]

/-- C2 counterexample: the 1200-word scenario does not produce chunks of
word-lengths 500, 500, 250 as the claim states: the generator's final
chunk keeps its 50 carried overlap words in addition to the 250 new words,
so the sizes are 500, 500, 300. -/
theorem ingest_1200_sizes_not_250 :
    (chunkFeed 500 50 (List.replicate 1200 ([119] : List Nat)) []).map
        List.length = [500, 500, 300] ∧
      (chunkFeed 500 50 (List.replicate 1200 ([119] : List Nat)) []).map
        List.length ≠ [500, 500, 250] := by
  rw [chunks_1200]
  constructor
  · simp only [List.map_cons, List.map_nil, List.length_replicate]
  · simp only [List.map_cons, List.map_nil, List.length_replicate]
    decide

/-- C2 (amended): ingesting a 1200-word document with chunk_size 500 and
overlap 50 yields exactly 3 chunks of word-lengths 500, 500 and 300 (the
final chunk holds its 50 carried overlap words plus the 250 remaining new
words); the declared overlaps hold (each later chunk starts with the 50
words the previous chunk ended with); the three labelled chunk texts are
inserted in one multi-row statement as 3 persisted rows with sequential ids
0, 1, 2, whose chunk_text values begin with the ascending labels
"[chunk 1] ", "[chunk 2] ", "[chunk 3] ". -/
theorem ingest_1200_scenario :
    chunkFeed 500 50 (List.replicate 1200 ([119] : List Nat)) [] =
        [List.replicate 500 [119], List.replicate 500 [119],
          List.replicate 300 [119]] ∧
      (chunkFeed 500 50 (List.replicate 1200 ([119] : List Nat)) []).map
        List.length = [500, 500, 300] ∧
      (List.replicate 500 ([119] : List Nat)).drop 450 =
        (List.replicate 500 ([119] : List Nat)).take 50 ∧
      (List.replicate 300 ([119] : List Nat)).take 50 =
        (List.replicate 500 ([119] : List Nat)).drop 450 ∧
      ingest_file_chunk_texts id asciiCatC 500 50 (List.replicate 1200 [119]) =
        [chunkLabel 1 (List.replicate 500 [119]),
          chunkLabel 2 (List.replicate 500 [119]),
          chunkLabel 3 (List.replicate 300 [119])] ∧
      store_metadata_and_embedding_batch
          (ingest_file_chunk_texts id asciiCatC 500 50
            (List.replicate 1200 [119])) 0 = (1, [0, 1, 2], 3) := by
  refine ⟨chunks_1200, ?_, ?_, ?_, ingest_texts_1200, ?_⟩
  · rw [chunks_1200]
    simp only [List.map_cons, List.map_nil, List.length_replicate]
  · rw [List.drop_replicate, List.take_replicate]
    norm_num
  · rw [List.drop_replicate, List.take_replicate]
    norm_num
  · rw [ingest_texts_1200,
      store_metadata_and_embedding_batch_single _ 0
        (List.cons_ne_nil _ _)
        (by simp only [List.length_cons, List.length_nil,
          DB_INSERT_BATCH_SIZE]; omega)]
    rfl

end Canines
